import Mathlib

/-!
Shallow embedding of the dead-letter queue in `jbi/queue.py`.

The queue stores `QueueItem`s keyed by the payload's bug id.  Two backends
exist: `MemoryBackend` (a `defaultdict(list)` from bug id to list of items)
and `FileBackend` (a directory tree `<root>/<bug id>/<identifier>.json`).
The facade `DeadLetterQueue` offers `postpone`, `track_failed`, `is_blocked`,
`retrieve` and `done`.

Machine-level conventions of the embedding:
* `datetime` creation timestamps are modelled as integer epoch seconds
  (`Nat`); the identifier format string uses the integer seconds.
* The payload's event time (`payload.event.time`) is, per the interface
  contract, a numeric epoch or null: `Option Nat`.
* The Python `dict` (insertion ordered, unique keys) backing the memory
  backend is an association list; its operations touch the first matching
  entry, and `defaultdict` access appends a fresh empty entry at the end.
* Filesystem errors (`os.remove` on a missing file) are modelled with
  `Option`, `none` meaning the raised exception.
-/

namespace JBI

/-- Mirrors `PythonException` (jbi/queue.py): error type name, description
and formatted traceback captured from a raised exception. -/
structure PythonException where
  type : String
  description : String
  details : String
  deriving DecidableEq, Repr

/-- The bug record inside a webhook payload; the core reads only its id. -/
structure Bug where
  id : Int
  deriving DecidableEq, Repr

/-- The event record inside a webhook payload: an action label and an
optional numeric event time. -/
structure WebhookEvent where
  action : String
  time : Option Nat
  deriving DecidableEq, Repr

/-- Mirrors `bugzilla.WebhookRequest` as consumed by the queue: the core
only reads `payload.bug.id`, `payload.event.action`, `payload.event.time`. -/
structure WebhookRequest where
  bug : Bug
  event : WebhookEvent
  deriving DecidableEq, Repr

/-- Mirrors `QueueItem` (jbi/queue.py): creation timestamp, payload, and an
optional captured exception. -/
structure QueueItem where
  timestamp : Nat
  payload : WebhookRequest
  error : Option PythonException
  deriving DecidableEq, Repr

/-- `QueueItem.identifier`:
`f"{timestamp:.0f}-{payload.event.action}-{error?"error":"postponed"}"`. -/
def QueueItem.identifier (i : QueueItem) : String :=
  toString i.timestamp ++ "-" ++ i.payload.event.action ++ "-" ++
    (match i.error with
     | some _ => "error"
     | none => "postponed")

/-! ## Memory backend

`MemoryBackend.existing` is a `defaultdict(list)`: mapping bug id to the
list of items, insertion ordered, unique keys.  Reading a missing key
materialises an empty entry (at the end, as in a Python dict). -/

/-- State of `MemoryBackend`: the `existing` dict as an association list. -/
abbrev MemState := List (Int × List QueueItem)

/-- `MemoryBackend.get`: `return self.existing[bug_id]` on a `defaultdict`;
returns the stored list (or `[]`) together with the possibly-extended dict. -/
def memGet : MemState → Int → List QueueItem × MemState
  | [], k => ([], [(k, [])])
  | (k', v) :: rest, k =>
    if k' = k then (v, (k', v) :: rest)
    else
      let r := memGet rest k
      (r.fst, (k', v) :: r.snd)

/-- `MemoryBackend.put`: `self.existing[item.payload.bug.id].append(item)`. -/
def memPut : MemState → QueueItem → MemState
  | [], i => [(i.payload.bug.id, [i])]
  | (k', v) :: rest, i =>
    if k' = i.payload.bug.id then (k', v ++ [i]) :: rest
    else (k', v) :: memPut rest i

/-- `MemoryBackend.remove`: replace the key's list by the sublist of items
whose identifier differs (a `defaultdict` read, so a missing key
materialises an empty entry). -/
def memRemove : MemState → Int → String → MemState
  | [], k, _ => [(k, [])]
  | (k', v) :: rest, k, ident =>
    if k' = k then (k', v.filter (fun i => i.identifier != ident)) :: rest
    else (k', v) :: memRemove rest k ident

/-- `MemoryBackend.size`: `sum(len(v) for v in self.existing.values())`. -/
def memSize (st : MemState) : Nat :=
  (st.map (fun e => e.snd.length)).sum

/-- `MemoryBackend.get_all`: returns the `existing` dict itself. -/
def memGetAll (st : MemState) : MemState := st

/-- Specification-side helper: the items currently stored for a key
(the dict lookup without the `defaultdict` side effect). -/
def memItems : MemState → Int → List QueueItem
  | [], _ => []
  | (k', v) :: rest, k => if k' = k then v else memItems rest k

/-! ## Dead letter queue facade, over the memory backend -/

/-- `DeadLetterQueue.postpone`: store `QueueItem(payload=payload)`
(no error), `ts` being the creation clock reading. -/
def postponeMem (st : MemState) (ts : Nat) (p : WebhookRequest) : MemState :=
  memPut st { timestamp := ts, payload := p, error := none }

/-- `DeadLetterQueue.track_failed`: store a `QueueItem` carrying
`PythonException.from_exc(exc)`. -/
def trackFailedMem (st : MemState) (ts : Nat) (p : WebhookRequest)
    (e : PythonException) : MemState :=
  memPut st { timestamp := ts, payload := p, error := some e }

/-- `DeadLetterQueue.is_blocked`: `len(await backend.get(payload.bug.id)) > 0`,
returned along with the state left by the `defaultdict` read. -/
def isBlockedMem (st : MemState) (p : WebhookRequest) : Bool × MemState :=
  let r := memGet st p.bug.id
  (decide (r.fst.length > 0), r.snd)

/-- `DeadLetterQueue.done`: `backend.remove(item.payload.bug.id, item.identifier)`. -/
def doneMem (st : MemState) (i : QueueItem) : MemState :=
  memRemove st i.payload.bug.id i.identifier

/-! ## retrieve -/

/-- The sort key `i.payload.event.time or 0` used by `retrieve`. -/
def eventKey (i : QueueItem) : Nat := i.payload.event.time.getD 0

/-- Comparison for the inner sort of `retrieve` (ascending event time). -/
def leTime (a b : QueueItem) : Bool := decide (eventKey a ≤ eventKey b)

/-- `items[0]`'s sort key, as used on each (nonempty) sorted group. -/
def headKey : List QueueItem → Nat
  | [] => 0
  | a :: _ => eventKey a

/-- Comparison for the outer sort of `retrieve` (by oldest item per group). -/
def leGroup (g h : List QueueItem) : Bool := decide (headKey g ≤ headKey h)

/-- `retrieve`'s `sorted_existing`: each nonempty value of the backend's
`get_all()` dict, sorted ascending by `payload.event.time or 0`. -/
def sortedExisting (existing : List (Int × List QueueItem)) :
    List (List QueueItem) :=
  ((existing.map Prod.snd).filter (fun v => decide (0 < v.length))).map
    (fun v => v.mergeSort leTime)

/-- `retrieve`'s `by_oldest_bug_events`: the groups sorted ascending by the
event time of each group's first (oldest) item. -/
def byOldestBugEvents (existing : List (Int × List QueueItem)) :
    List (List QueueItem) :=
  (sortedExisting existing).mergeSort leGroup

/-- `DeadLetterQueue.retrieve`: `list(itertools.chain(*by_oldest_bug_events))`. -/
def retrieveFrom (existing : List (Int × List QueueItem)) : List QueueItem :=
  (byOldestBugEvents existing).flatten

/-- `retrieve` over the memory backend (`get_all` returns the dict). -/
def retrieveMem (st : MemState) : List QueueItem :=
  retrieveFrom (memGetAll st)

/-! ## Call sequences against the facade (memory backend) -/

/-- One public call on the dead-letter queue facade. -/
inductive DLOp where
  | postpone (ts : Nat) (p : WebhookRequest)
  | trackFailed (ts : Nat) (p : WebhookRequest) (e : PythonException)
  | markDone (i : QueueItem)
  deriving Repr

/-- Apply one facade call to the memory backend state. -/
def applyOp (st : MemState) : DLOp → MemState
  | .postpone ts p => postponeMem st ts p
  | .trackFailed ts p e => trackFailedMem st ts p e
  | .markDone i => doneMem st i

/-- Run a sequence of facade calls. -/
def runOps (st : MemState) (ops : List DLOp) : MemState :=
  ops.foldl applyOp st

/-- The facade call that stores a given item (postpone when it has no
error, track_failed when it has one). -/
def opOf (i : QueueItem) : DLOp :=
  match i.error with
  | none => .postpone i.timestamp i.payload
  | some e => .trackFailed i.timestamp i.payload e

/-! ## Basic lemmas about the memory backend -/

theorem memGet_fst (st : MemState) (k : Int) :
    (memGet st k).fst = memItems st k := by
  induction st with
  | nil => simp [memGet, memItems]
  | cons e rest ih =>
    obtain ⟨k', v⟩ := e
    by_cases h : k' = k
    · simp [memGet, memItems, h]
    · simp [memGet, memItems, h]
      exact ih

theorem memGet_snd (st : MemState) (k : Int) :
    (memGet st k).snd = st ∨ (memGet st k).snd = st ++ [(k, [])] := by
  induction st with
  | nil => right; rfl
  | cons e rest ih =>
    obtain ⟨k', v⟩ := e
    by_cases h : k' = k
    · left; simp [memGet, h]
    · rcases ih with ih | ih
      · left; simp [memGet, h, ih]
      · right; simp [memGet, h, ih]

/-! ## Lemmas about the comparators used by retrieve -/

theorem leTime_trans (a b c : QueueItem) (h1 : leTime a b = true)
    (h2 : leTime b c = true) : leTime a c = true := by
  simp only [leTime, decide_eq_true_eq] at *
  omega

theorem leTime_total (a b : QueueItem) : (leTime a b || leTime b a) = true := by
  simp only [leTime, Bool.or_eq_true, decide_eq_true_eq]
  omega

theorem leGroup_trans (a b c : List QueueItem) (h1 : leGroup a b = true)
    (h2 : leGroup b c = true) : leGroup a c = true := by
  simp only [leGroup, decide_eq_true_eq] at *
  omega

theorem leGroup_total (a b : List QueueItem) :
    (leGroup a b || leGroup b a) = true := by
  simp only [leGroup, Bool.or_eq_true, decide_eq_true_eq]
  omega

theorem flatten_filter_nonempty (l : List (List QueueItem)) :
    ((l.filter (fun v => decide (0 < v.length))).flatten) = l.flatten := by
  induction l with
  | nil => rfl
  | cons v rest ih => cases v <;> simp [List.filter_cons, ih]

theorem flatten_map_mergeSort_perm (l : List (List QueueItem)) :
    ((l.map (fun v => v.mergeSort leTime)).flatten).Perm l.flatten := by
  induction l with
  | nil => exact List.Perm.refl _
  | cons v rest ih =>
    simp only [List.map_cons, List.flatten_cons]
    exact (List.mergeSort_perm v leTime).append ih

theorem mem_byOldest_iff (existing : List (Int × List QueueItem))
    (g : List QueueItem) :
    g ∈ byOldestBugEvents existing ↔
      ∃ v ∈ (existing.map Prod.snd).filter (fun v => decide (0 < v.length)),
        g = v.mergeSort leTime := by
  unfold byOldestBugEvents sortedExisting
  rw [(List.mergeSort_perm _ leGroup).mem_iff, List.mem_map]
  constructor
  · rintro ⟨v, hv, rfl⟩
    exact ⟨v, hv, rfl⟩
  · rintro ⟨v, hv, rfl⟩
    exact ⟨v, hv, rfl⟩

/-- C1: `retrieve()` returns the full backlog as one flat sequence produced
by a two-level sort: each key's nonempty group sorted ascending by the
payload's event time (absent treated as `0`), groups ordered ascending by
the event time of their oldest (first-after-sorting) item, the result being
the concatenation of the groups; empty groups are excluded, and the result
is a permutation of all stored items. -/
theorem retrieve_two_level_sort (existing : List (Int × List QueueItem)) :
    retrieveFrom existing = (byOldestBugEvents existing).flatten ∧
    (∀ g ∈ byOldestBugEvents existing, g ≠ []) ∧
    (∀ g ∈ byOldestBugEvents existing,
      g.Pairwise (fun a b => eventKey a ≤ eventKey b)) ∧
    (∀ g ∈ byOldestBugEvents existing, ∀ a ∈ g, headKey g ≤ eventKey a) ∧
    (byOldestBugEvents existing).Pairwise (fun g h => headKey g ≤ headKey h) ∧
    (retrieveFrom existing).Perm ((existing.map Prod.snd).flatten) ∧
    (∀ g ∈ byOldestBugEvents existing,
      ∃ v ∈ existing.map Prod.snd, g.Perm v) ∧
    (∀ v ∈ existing.map Prod.snd, v ≠ [] →
      ∃ g ∈ byOldestBugEvents existing, g.Perm v) := by
  refine ⟨rfl, ?_, ?_, ?_, ?_, ?_, ?_, ?_⟩
  · intro g hg
    rw [mem_byOldest_iff] at hg
    obtain ⟨v, hv, rfl⟩ := hg
    rw [List.mem_filter, decide_eq_true_eq] at hv
    have hlen := (List.mergeSort_perm v leTime).length_eq
    intro hnil
    rw [hnil] at hlen
    simp at hlen
    omega
  · intro g hg
    rw [mem_byOldest_iff] at hg
    obtain ⟨v, hv, rfl⟩ := hg
    have hs := List.sorted_mergeSort leTime_trans leTime_total v
    exact hs.imp (fun h => by simpa [leTime, decide_eq_true_eq] using h)
  · intro g hg a ha
    rw [mem_byOldest_iff] at hg
    obtain ⟨v, hv, rfl⟩ := hg
    have hs := List.sorted_mergeSort leTime_trans leTime_total v
    revert ha
    cases hms : v.mergeSort leTime with
    | nil => intro ha; simp at ha
    | cons b t =>
      intro ha
      rw [hms] at hs
      rcases List.mem_cons.mp ha with rfl | hat
      · simp [headKey]
      · have := (List.pairwise_cons.mp hs).1 a hat
        simpa [headKey, leTime, decide_eq_true_eq] using this
  · have hs := List.sorted_mergeSort leGroup_trans leGroup_total
      (sortedExisting existing)
    exact hs.imp (fun h => by simpa [leGroup, decide_eq_true_eq] using h)
  · unfold retrieveFrom byOldestBugEvents
    have h1 : (((sortedExisting existing).mergeSort leGroup).flatten).Perm
        ((sortedExisting existing).flatten) :=
      (List.mergeSort_perm _ leGroup).flatten
    have h2 : ((sortedExisting existing).flatten).Perm
        (((existing.map Prod.snd).filter
          (fun v => decide (0 < v.length))).flatten) := by
      unfold sortedExisting
      exact flatten_map_mergeSort_perm _
    rw [← flatten_filter_nonempty (existing.map Prod.snd)]
    exact h1.trans h2
  · intro g hg
    rw [mem_byOldest_iff] at hg
    obtain ⟨v, hv, rfl⟩ := hg
    rw [List.mem_filter] at hv
    exact ⟨v, hv.1, List.mergeSort_perm v leTime⟩
  · intro v hv hvne
    refine ⟨v.mergeSort leTime, ?_, List.mergeSort_perm v leTime⟩
    rw [mem_byOldest_iff]
    refine ⟨v, ?_, rfl⟩
    rw [List.mem_filter, decide_eq_true_eq]
    exact ⟨hv, by cases v <;> simp_all⟩

/-- C2: `is_blocked` returns true exactly when the backend currently holds
at least one stored item for the payload's key; consequently, after any
sequence of facade calls starting from the empty backend, `is_blocked` is
true iff the key's backlog is nonempty. -/
theorem is_blocked_iff_pending :
    (∀ (st : MemState) (p : WebhookRequest),
      (isBlockedMem st p).fst = true ↔ memItems st p.bug.id ≠ []) ∧
    (∀ (ops : List DLOp) (p : WebhookRequest),
      (isBlockedMem (runOps [] ops) p).fst = true ↔
        memItems (runOps [] ops) p.bug.id ≠ []) := by
  have h : ∀ (st : MemState) (p : WebhookRequest),
      (isBlockedMem st p).fst = true ↔ memItems st p.bug.id ≠ [] := by
    intro st p
    have hb : (isBlockedMem st p).fst =
        decide ((memGet st p.bug.id).fst.length > 0) := rfl
    rw [hb, memGet_fst]
    simp [List.length_pos]
  exact ⟨h, fun ops p => h (runOps [] ops) p⟩

/-- C10: `is_blocked` is a pure query with respect to the queue's
observable contents: it changes neither `size()` nor `retrieve()`, for any
payload and any backend state (even for a never-seen key, where the
`defaultdict` read materialises an empty entry). -/
theorem is_blocked_frame (st : MemState) (p : WebhookRequest) :
    memSize (isBlockedMem st p).snd = memSize st ∧
    retrieveMem (isBlockedMem st p).snd = retrieveMem st := by
  have h := memGet_snd st p.bug.id
  have hs : (isBlockedMem st p).snd = (memGet st p.bug.id).snd := rfl
  unfold retrieveMem memGetAll
  rw [hs]
  rcases h with h | h <;> rw [h]
  · exact ⟨rfl, rfl⟩
  · constructor
    · simp [memSize]
    · unfold retrieveFrom byOldestBugEvents sortedExisting
      simp [List.filter_append]

/-! ## Size bookkeeping for the memory backend -/

/-- All items stored in the backend, across all keys. -/
def allItems (st : MemState) : List QueueItem :=
  (st.map Prod.snd).flatten

/-- The (key, identifier) pair that `done` uses to address an item. -/
def itemKey (i : QueueItem) : Int × String :=
  (i.payload.bug.id, i.identifier)

/-- Whether an item is addressed by the given (key, identifier) pair. -/
def matchesKey (k : Int) (ident : String) (i : QueueItem) : Bool :=
  i.payload.bug.id == k && i.identifier == ident

/-- Whether item `i` is addressed by `done r`'s (key, identifier) pair. -/
def matchesItem (r i : QueueItem) : Bool :=
  matchesKey r.payload.bug.id r.identifier i

/-- Well-formedness of a memory backend state: distinct dict keys, and
every stored item sits under its payload's bug id. -/
def MemWF (st : MemState) : Prop :=
  (st.map Prod.fst).Nodup ∧ ∀ e ∈ st, ∀ i ∈ e.snd, i.payload.bug.id = e.fst

theorem memWF_nil : MemWF [] := by constructor <;> simp

theorem memWF_cons {k : Int} {v : List QueueItem} {rest : MemState}
    (h : MemWF ((k, v) :: rest)) : MemWF rest := by
  obtain ⟨hnd, hkey⟩ := h
  exact ⟨(List.nodup_cons.mp hnd).2,
    fun e he i hi => hkey e (List.mem_cons_of_mem _ he) i hi⟩

theorem memSize_eq_allItems (st : MemState) :
    memSize st = (allItems st).length := by
  induction st with
  | nil => rfl
  | cons e rest ih => simp [memSize, allItems] at *; omega

theorem mem_allItems (st : MemState) (i : QueueItem) :
    i ∈ allItems st ↔ ∃ e ∈ st, i ∈ e.snd := by
  simp only [allItems, List.mem_flatten, List.mem_map]
  constructor
  · rintro ⟨l, ⟨e, he, rfl⟩, hil⟩
    exact ⟨e, he, hil⟩
  · rintro ⟨e, he, hil⟩
    exact ⟨e.snd, ⟨e, he, rfl⟩, hil⟩

theorem keys_memPut (st : MemState) (i : QueueItem) :
    (memPut st i).map Prod.fst =
      if i.payload.bug.id ∈ st.map Prod.fst then st.map Prod.fst
      else st.map Prod.fst ++ [i.payload.bug.id] := by
  induction st with
  | nil => simp [memPut]
  | cons e rest ih =>
    obtain ⟨k', v⟩ := e
    by_cases hk : k' = i.payload.bug.id
    · simp [memPut, hk]
    · have hne : i.payload.bug.id ≠ k' := fun h => hk h.symm
      simp only [memPut, if_neg hk, List.map_cons, List.mem_cons, hne,
        false_or, ih]
      by_cases hmem : i.payload.bug.id ∈ rest.map Prod.fst <;> simp [hmem]

theorem keys_memRemove (st : MemState) (k : Int) (ident : String) :
    (memRemove st k ident).map Prod.fst =
      if k ∈ st.map Prod.fst then st.map Prod.fst
      else st.map Prod.fst ++ [k] := by
  induction st with
  | nil => simp [memRemove]
  | cons e rest ih =>
    obtain ⟨k', v⟩ := e
    by_cases hk : k' = k
    · simp [memRemove, hk]
    · have hne : k ≠ k' := fun h => hk h.symm
      simp only [memRemove, if_neg hk, List.map_cons, List.mem_cons, hne,
        false_or, ih]
      by_cases hmem : k ∈ rest.map Prod.fst <;> simp [hmem]

theorem memPut_items (st : MemState) (i : QueueItem) :
    (∀ e ∈ st, ∀ j ∈ e.snd, j.payload.bug.id = e.fst) →
    ∀ e ∈ memPut st i, ∀ j ∈ e.snd, j.payload.bug.id = e.fst := by
  induction st with
  | nil =>
    intro _ e he j hj
    simp [memPut] at he
    subst he
    simp at hj
    simp [hj]
  | cons hd rest ih =>
    obtain ⟨k', v⟩ := hd
    intro hkey e he j hj
    by_cases hk : k' = i.payload.bug.id
    · simp only [memPut, if_pos hk, List.mem_cons] at he
      rcases he with rfl | he
      · simp only at hj
        rcases List.mem_append.mp hj with hjv | hji
        · exact hkey (k', v) (List.mem_cons_self _ _) j hjv
        · simp at hji
          simp [hji, hk]
      · exact hkey e (List.mem_cons_of_mem _ he) j hj
    · simp only [memPut, if_neg hk, List.mem_cons] at he
      rcases he with rfl | he
      · exact hkey (k', v) (List.mem_cons_self _ _) j hj
      · exact ih (fun x hx => hkey x (List.mem_cons_of_mem _ hx)) e he j hj

theorem memRemove_items (st : MemState) (k : Int) (ident : String) :
    (∀ e ∈ st, ∀ j ∈ e.snd, j.payload.bug.id = e.fst) →
    ∀ e ∈ memRemove st k ident, ∀ j ∈ e.snd, j.payload.bug.id = e.fst := by
  induction st with
  | nil =>
    intro _ e he j hj
    simp [memRemove] at he
    subst he
    simp at hj
  | cons hd rest ih =>
    obtain ⟨k', v⟩ := hd
    intro hkey e he j hj
    by_cases hk : k' = k
    · simp only [memRemove, if_pos hk, List.mem_cons] at he
      rcases he with rfl | he
      · simp only at hj
        exact hkey (k', v) (List.mem_cons_self _ _) j (List.mem_of_mem_filter hj)
      · exact hkey e (List.mem_cons_of_mem _ he) j hj
    · simp only [memRemove, if_neg hk, List.mem_cons] at he
      rcases he with rfl | he
      · exact hkey (k', v) (List.mem_cons_self _ _) j hj
      · exact ih (fun x hx => hkey x (List.mem_cons_of_mem _ hx)) e he j hj

theorem memWF_memPut {st : MemState} (i : QueueItem) (h : MemWF st) :
    MemWF (memPut st i) := by
  constructor
  · rw [keys_memPut]
    by_cases hmem : i.payload.bug.id ∈ st.map Prod.fst
    · simpa [hmem] using h.1
    · simp only [hmem, if_neg, ite_false]
      exact h.1.append (List.nodup_singleton _) (by simpa using hmem)
  · exact memPut_items st i h.2

theorem memWF_memRemove {st : MemState} (k : Int) (ident : String)
    (h : MemWF st) : MemWF (memRemove st k ident) := by
  constructor
  · rw [keys_memRemove]
    by_cases hmem : k ∈ st.map Prod.fst
    · simpa [hmem] using h.1
    · simp only [hmem, if_neg, ite_false]
      exact h.1.append (List.nodup_singleton _) (by simpa using hmem)
  · exact memRemove_items st k ident h.2

theorem allItems_memPut (st : MemState) (i : QueueItem) :
    (allItems (memPut st i)).Perm (i :: allItems st) := by
  induction st with
  | nil => simp [memPut, allItems]
  | cons e rest ih =>
    obtain ⟨k', v⟩ := e
    by_cases hk : k' = i.payload.bug.id
    · simp only [memPut, if_pos hk, allItems, List.map_cons, List.flatten_cons,
        List.append_assoc, List.singleton_append]
      exact List.perm_middle
    · simp only [memPut, if_neg hk, allItems, List.map_cons, List.flatten_cons]
      exact ((ih).append_left v).trans List.perm_middle

theorem allItems_memRemove (st : MemState) (k : Int) (ident : String)
    (h : MemWF st) :
    allItems (memRemove st k ident) =
      (allItems st).filter (fun i => !(matchesKey k ident i)) := by
  induction st with
  | nil => simp [memRemove, allItems]
  | cons e rest ih =>
    obtain ⟨k', v⟩ := e
    have hrest := memWF_cons h
    by_cases hk : k' = k
    · have h1 : v.filter (fun i => i.identifier != ident) =
          v.filter (fun i => !(matchesKey k ident i)) := by
        apply List.filter_congr
        intro x hx
        have hkx : x.payload.bug.id = k' :=
          h.2 (k', v) (List.mem_cons_self _ _) x hx
        simp [matchesKey, hkx, hk, bne]
      have h2 : (allItems rest).filter (fun i => !(matchesKey k ident i)) =
          allItems rest := by
        rw [List.filter_eq_self]
        intro x hx
        obtain ⟨e, he, hxe⟩ := (mem_allItems rest x).mp hx
        have hkx : x.payload.bug.id = e.fst :=
          hrest.2 e he x hxe
        have hkne : e.fst ≠ k := by
          intro heq
          have hmem : k' ∈ rest.map Prod.fst := by
            rw [hk, ← heq]
            exact List.mem_map_of_mem Prod.fst he
          exact (List.nodup_cons.mp h.1).1 hmem
        simp [matchesKey, hkx, hkne]
      simp only [memRemove, if_pos hk, allItems, List.map_cons,
        List.flatten_cons, List.filter_append]
      simp only [allItems] at h1 h2
      rw [h1, h2]
    · have h1 : v.filter (fun i => !(matchesKey k ident i)) = v := by
        rw [List.filter_eq_self]
        intro x hx
        have hkx : x.payload.bug.id = k' :=
          h.2 (k', v) (List.mem_cons_self _ _) x hx
        simp [matchesKey, hkx, hk]
      have h3 := ih hrest
      simp only [memRemove, if_neg hk, allItems, List.map_cons,
        List.flatten_cons, List.filter_append]
      simp only [allItems] at h1 h3
      rw [h1, h3]

theorem applyOp_opOf (st : MemState) (i : QueueItem) :
    applyOp st (opOf i) = memPut st i := by
  obtain ⟨ts, p, err⟩ := i
  cases err <;> rfl

theorem runOps_puts (items : List QueueItem) (st : MemState) :
    runOps st (items.map opOf) = items.foldl memPut st := by
  induction items generalizing st with
  | nil => rfl
  | cons i rest ih =>
    simp only [List.map_cons, runOps, List.foldl_cons] at *
    rw [applyOp_opOf, ih]

theorem allItems_foldl_memPut (items : List QueueItem) (st : MemState) :
    (allItems (items.foldl memPut st)).Perm (allItems st ++ items) := by
  induction items generalizing st with
  | nil => simp
  | cons i rest ih =>
    simp only [List.foldl_cons]
    have h1 := ih (memPut st i)
    have h2 : (allItems (memPut st i) ++ rest).Perm
        ((i :: allItems st) ++ rest) :=
      (allItems_memPut st i).append_right rest
    exact (h1.trans h2).trans List.perm_middle.symm

theorem memWF_foldl_memPut (items : List QueueItem) (st : MemState)
    (h : MemWF st) : MemWF (items.foldl memPut st) := by
  induction items generalizing st with
  | nil => exact h
  | cons i rest ih => exact ih (memPut st i) (memWF_memPut i h)

theorem allItems_runDones (removed : List QueueItem) (st : MemState)
    (h : MemWF st) :
    allItems (runOps st (removed.map DLOp.markDone)) =
      (allItems st).filter (fun i => removed.all (fun r => !(matchesItem r i))) := by
  induction removed generalizing st with
  | nil => simp [runOps]
  | cons r rs ih =>
    simp only [List.map_cons, runOps, List.foldl_cons] at *
    have hstep : applyOp st (.markDone r) =
        memRemove st r.payload.bug.id r.identifier := rfl
    rw [hstep, ih _ (memWF_memRemove _ _ h),
      allItems_memRemove _ _ _ h, List.filter_filter]
    apply List.filter_congr
    intro x hx
    simp [matchesItem, Bool.and_comm]

theorem memWF_runDones (removed : List QueueItem) (st : MemState)
    (h : MemWF st) : MemWF (runOps st (removed.map DLOp.markDone)) := by
  induction removed generalizing st with
  | nil => exact h
  | cons r rs ih =>
    simp only [List.map_cons, runOps, List.foldl_cons] at *
    exact ih _ (memWF_memRemove _ _ h)

theorem filter_mem_perm {α : Type} [DecidableEq α] {l r : List α}
    (hl : l.Nodup) (hr : r.Nodup) (hsub : r ⊆ l) :
    (l.filter (fun a => decide (a ∈ r))).Perm r := by
  rw [List.perm_ext_iff_of_nodup (hl.filter _) hr]
  intro a
  simp only [List.mem_filter, decide_eq_true_eq]
  exact ⟨fun ha => ha.2, fun ha => ⟨hsub ha, ha⟩⟩

/-! ## JSON serialization (`item.model_dump_json()` / `QueueItem(**json.load(f))`)

File contents are modelled as a JSON value tree (the stable JSON-compatible
structure written by `model_dump_json`), rather than raw text. -/

/-- A JSON value. -/
inductive Json where
  | null
  | num (n : Int)
  | str (s : String)
  | obj (fields : List (String × Json))

/-- Field lookup in a JSON object. -/
def getField (fields : List (String × Json)) (name : String) : Option Json :=
  (fields.find? (fun f => f.fst == name)).map Prod.snd

/-- Serialize the optional error record. -/
def errorToJson : Option PythonException → Json
  | none => .null
  | some e => .obj [("type", .str e.type), ("description", .str e.description),
      ("details", .str e.details)]

/-- Serialize the optional numeric event time. -/
def timeToJson : Option Nat → Json
  | none => .null
  | some t => .num t

/-- Serialize a queue item, mirroring `model_dump_json`'s field layout. -/
def itemToJson (i : QueueItem) : Json :=
  .obj [("timestamp", .num i.timestamp),
    ("payload", .obj [("bug", .obj [("id", .num i.payload.bug.id)]),
      ("event", .obj [("action", .str i.payload.event.action),
        ("time", timeToJson i.payload.event.time)])]),
    ("error", errorToJson i.error)]

/-- Read a JSON value as a nonnegative integer. -/
def asNat : Json → Option Nat
  | .num (.ofNat n) => some n
  | _ => none

/-- Read a JSON value as an integer. -/
def asInt : Json → Option Int
  | .num n => some n
  | _ => none

/-- Read a JSON value as a string. -/
def asStr : Json → Option String
  | .str s => some s
  | _ => none

/-- Read a JSON value as an optional nonnegative integer (null allowed). -/
def asOptNat : Json → Option (Option Nat)
  | .null => some none
  | .num (.ofNat n) => some (some n)
  | _ => none

/-- Parse the error field (null or a three-string object). -/
def errorFromJson : Json → Option (Option PythonException)
  | .null => some none
  | .obj fields => do
    let t ← getField fields "type" >>= asStr
    let de ← getField fields "description" >>= asStr
    let dt ← getField fields "details" >>= asStr
    some (some ⟨t, de, dt⟩)
  | _ => none

/-- Parse the nested payload object. -/
def payloadFromJson : Json → Option WebhookRequest
  | .obj fields => do
    let bj ← getField fields "bug"
    let bid ← (match bj with
      | .obj bf => getField bf "id" >>= asInt
      | _ => none)
    let ej ← getField fields "event"
    let r ← (match ej with
      | .obj ef => do
        let act ← getField ef "action" >>= asStr
        let tm ← getField ef "time" >>= asOptNat
        some (act, tm)
      | _ => none)
    some ⟨⟨bid⟩, ⟨r.fst, r.snd⟩⟩
  | _ => none

/-- Parse a whole queue item (pydantic validation of the loaded JSON; a
file written by `put` always carries every field). -/
def itemFromJson : Json → Option QueueItem
  | .obj fields => do
    let ts ← getField fields "timestamp" >>= asNat
    let pj ← getField fields "payload"
    let p ← payloadFromJson pj
    let ej ← getField fields "error"
    let e ← errorFromJson ej
    some ⟨ts, p, e⟩
  | _ => none

/-! ## File backend

The directory tree: one subdirectory per key (its name the key's decimal
rendering, injective, so modelled as the integer itself), one
`<identifier>.json` file per item.  `rglob` yields each directory's files
consecutively. -/

/-- One key's directory: file name to file content. -/
abbrev Dir := List (String × Json)

/-- State of `FileBackend`: the tree of per-key directories. -/
abbrev FS := List (Int × Dir)

/-- The subdirectory of a key, if present. -/
def fsDir : FS → Int → Option Dir
  | [], _ => none
  | (k', d) :: rest, k => if k' = k then some d else fsDir rest k

/-- The files of a key's directory (empty when the directory is absent). -/
def fsDirFiles (fs : FS) (k : Int) : Dir :=
  (fsDir fs k).getD []

/-- Write a file into a directory, overwriting a file of the same name. -/
def dirWrite : Dir → String → Json → Dir
  | [], name, content => [(name, content)]
  | (n, c) :: rest, name, content =>
    if n = name then (n, content) :: rest
    else (n, c) :: dirWrite rest name content

/-- `FileBackend.put`: ensure the key's folder exists (`os.makedirs`),
then write `<identifier>.json` containing the serialized item. -/
def fsPut : FS → QueueItem → FS
  | [], i => [(i.payload.bug.id, [(i.identifier ++ ".json", itemToJson i)])]
  | (k', d) :: rest, i =>
    if k' = i.payload.bug.id then
      (k', dirWrite d (i.identifier ++ ".json") (itemToJson i)) :: rest
    else (k', d) :: fsPut rest i

/-- `os.remove` of one file in a directory: `none` (FileNotFoundError)
when no file of that name exists. -/
def dirRemoveFile : Dir → String → Option Dir
  | [], _ => none
  | (n, c) :: rest, name =>
    if n = name then some rest
    else (dirRemoveFile rest name).map (fun d => (n, c) :: d)

/-- `FileBackend.remove`: `os.remove(root/<bug_id>/<identifier>.json)`;
`none` models the raised FileNotFoundError (missing directory or file). -/
def fsRemove : FS → Int → String → Option FS
  | [], _, _ => none
  | (k', d) :: rest, k, ident =>
    if k' = k then
      (dirRemoveFile d (ident ++ ".json")).map (fun d2 => (k', d2) :: rest)
    else (fsRemove rest k ident).map (fun fs2 => (k', d) :: fs2)

/-- Parse a sequence of file contents in order; `none` when any file fails
to parse (the raised validation error). -/
def parseFiles : List Json → Option (List QueueItem)
  | [] => some []
  | j :: rest => do
    let i ← itemFromJson j
    let l ← parseFiles rest
    pure (i :: l)

/-- Parse every file of a directory. -/
def parseDir (d : Dir) : Option (List QueueItem) :=
  parseFiles (d.map Prod.snd)

/-- `FileBackend.get`: glob the key's folder (empty when absent) and parse
each file. -/
def fsGet (fs : FS) (k : Int) : Option (List QueueItem) :=
  match fsDir fs k with
  | none => some []
  | some d => parseDir d

/-- The contents of all files in `rglob` order (directory by directory). -/
def fsAllFiles (fs : FS) : List Json :=
  (fs.map (fun e => e.snd.map Prod.snd)).flatten

/-- `itertools.groupby(..., key=lambda i: i.payload.bug.id)`: maximal
consecutive runs of equal key. -/
def groupRuns : List QueueItem → List (Int × List QueueItem)
  | [] => []
  | i :: rest =>
    match groupRuns rest with
    | [] => [(i.payload.bug.id, [i])]
    | (k, g) :: gs =>
      if i.payload.bug.id = k then (k, i :: g) :: gs
      else (i.payload.bug.id, [i]) :: (k, g) :: gs

/-- One assignment `d[k] = v` of a Python dict comprehension: the first
occurrence keeps its position, the value is overwritten. -/
def dictAssign (d : List (Int × List QueueItem)) (k : Int)
    (v : List QueueItem) : List (Int × List QueueItem) :=
  match d with
  | [] => [(k, v)]
  | (k', v') :: rest =>
    if k' = k then (k', v) :: rest else (k', v') :: dictAssign rest k v

/-- The dict comprehension `{k: list(v) for k, v in by_bug}`. -/
def dictOfRuns (runs : List (Int × List QueueItem)) :
    List (Int × List QueueItem) :=
  runs.foldl (fun d e => dictAssign d e.fst e.snd) []

/-- `FileBackend.get_all`: parse every file found by `rglob`, group the
parsed items by the payload's bug id with `itertools.groupby`, and build
the result dict. -/
def fsGetAll (fs : FS) : Option (List (Int × List QueueItem)) := do
  let allParsed ← parseFiles (fsAllFiles fs)
  pure (dictOfRuns (groupRuns allParsed))

/-- `FileBackend.size`: count of `*.json` files in the whole tree. -/
def fsSize (fs : FS) : Nat :=
  (fs.map (fun e => e.snd.length)).sum

/-! ## Backend selection (`DeadLetterQueue.__init__` and `urlparse`) -/

/-- Characters allowed in a URL scheme after the leading letter. -/
def isSchemeChar (c : Char) : Bool :=
  c.isAlpha || c.isDigit || c == '+' || c == '-' || c == '.'

/-- Split a character list at the first colon. -/
def splitColon : List Char → Option (List Char × List Char)
  | [] => none
  | c :: rest =>
    if c = ':' then some ([], rest)
    else (splitColon rest).map (fun p => (c :: p.fst, p.snd))

/-- A valid scheme: a letter followed by scheme characters. -/
def validScheme : List Char → Bool
  | [] => false
  | c :: rest => c.isAlpha && rest.all isSchemeChar

/-- Split off the network location after `//`, as `urlparse` does. -/
def splitNetloc (cs : List Char) : List Char × List Char :=
  match cs with
  | '/' :: '/' :: rest =>
    let netloc := rest.takeWhile (fun c => !(c == '/' || c == '?' || c == '#'))
    (netloc, rest.drop netloc.length)
  | _ => ([], cs)

/-- The path component: up to a query or fragment delimiter. -/
def pathOf (cs : List Char) : List Char :=
  cs.takeWhile (fun c => !(c == '?' || c == '#'))

/-- The components of `urllib.parse.urlparse` that the queue reads. -/
structure ParsedUrl where
  scheme : String
  netloc : String
  path : String
  deriving DecidableEq, Repr

/-- Shallow model of `urllib.parse.urlparse`: lowercased scheme when the
prefix before the first colon is a valid scheme, then netloc and path. -/
def parseUrl (s : String) : ParsedUrl :=
  let cs := s.toList
  let schemeRest : List Char × List Char :=
    match splitColon cs with
    | some (pre, post) =>
      if validScheme pre then (pre.map Char.toLower, post) else ([], cs)
    | none => ([], cs)
  let nl := splitNetloc schemeRest.snd
  { scheme := String.mk schemeRest.fst
    netloc := String.mk nl.fst
    path := String.mk (pathOf nl.snd) }

/-- The backend owned by a `DeadLetterQueue`, in its initial state. -/
inductive Backend where
  | mem (st : MemState)
  | file (root : String) (fs : FS)

/-- `InvalidQueueDSNError`. -/
inductive DLQError where
  | invalidQueueDSN (scheme : String)

/-- `DeadLetterQueue.__init__`: dispatch on the DSN's scheme; `memory`
selects the memory backend, `file` a file backend rooted at the path, and
anything else raises `InvalidQueueDSNError` before any backend exists. -/
def dlqInit (dsn : String) : Except DLQError Backend :=
  let parsed := parseUrl dsn
  if parsed.scheme = "memory" then .ok (.mem [])
  else if parsed.scheme = "file" then .ok (.file parsed.path [])
  else .error (.invalidQueueDSN parsed.scheme)

/-! ## C6: size after puts and dones -/

/-- Two distinct payloads for bug 1 whose queue items collide on the
identifier (same creation second, same action, both postponed). -/
def collidingPayloadA : WebhookRequest := ⟨⟨1⟩, ⟨"a", some 100⟩⟩

/-- Second colliding payload (different event time). -/
def collidingPayloadB : WebhookRequest := ⟨⟨1⟩, ⟨"a", some 50⟩⟩

/-- First colliding item. -/
def collidingItemA : QueueItem := ⟨10, collidingPayloadA, none⟩

/-- Second colliding item: distinct from the first, same identifier. -/
def collidingItemB : QueueItem := ⟨10, collidingPayloadB, none⟩

/-- An item under another bug id with a fresh identifier. -/
def otherBugItem : QueueItem := ⟨11, ⟨⟨2⟩, ⟨"b", some 70⟩⟩, none⟩

/-- C6 counterexample: store two distinct items (N = 2) and remove one of
them (M = 1, trivially all distinct); because both items share the
(key, identifier) pair, the single `done` removes both and `size()`
returns 0, not N − M = 1. -/
theorem size_after_dones_counterexample :
    collidingItemA ≠ collidingItemB ∧
    collidingItemA ∈ [collidingItemA, collidingItemB] ∧
    [collidingItemA].Nodup ∧
    memSize (runOps [] ([collidingItemA, collidingItemB].map opOf ++
      [collidingItemA].map DLOp.markDone)) = 0 ∧
    [collidingItemA, collidingItemB].length - [collidingItemA].length = 1 := by
  refine ⟨by decide, by decide, by decide, by decide, by decide⟩

/-- C6 (amended): starting from an empty backend, after storing the items
of `items` via put and removing the distinct items of `removed ⊆ items`
via done, `size()` equals N − M — provided the stored items carry pairwise
distinct (key, identifier) pairs (identifier collisions make one `done`
sweep several items, which is the accepted precision limit of the
identifier). -/
theorem size_after_puts_and_dones (items removed : List QueueItem)
    (hsub : removed ⊆ items) (hnd : removed.Nodup)
    (hdist : items.Pairwise (fun a b => itemKey a ≠ itemKey b)) :
    memSize (runOps [] (items.map opOf ++ removed.map DLOp.markDone)) =
      items.length - removed.length := by
  have hitemsnd : items.Nodup :=
    hdist.imp (fun h => fun heq => h (by rw [heq]))
  have hsplit : runOps [] (items.map opOf ++ removed.map DLOp.markDone) =
      runOps (runOps [] (items.map opOf)) (removed.map DLOp.markDone) :=
    List.foldl_append _ _ _ _
  rw [hsplit, runOps_puts]
  have hwf : MemWF (items.foldl memPut []) :=
    memWF_foldl_memPut items [] memWF_nil
  have hperm : (allItems (items.foldl memPut [])).Perm items := by
    have h := allItems_foldl_memPut items []
    simpa [allItems] using h
  rw [memSize_eq_allItems, allItems_runDones removed _ hwf]
  have hpermf :=
    hperm.filter (fun i => removed.all (fun r => !(matchesItem r i)))
  rw [hpermf.length_eq]
  have hcong : items.filter (fun i => removed.all (fun r => !(matchesItem r i))) =
      items.filter (fun i => !(decide (i ∈ removed))) := by
    apply List.filter_congr
    intro x hx
    rw [Bool.eq_iff_iff]
    simp only [List.all_eq_true, Bool.not_eq_eq_eq_not, Bool.not_true,
      decide_eq_false_iff_not]
    constructor
    · intro hall hmem
      have hself := hall x hmem
      simp [matchesItem, matchesKey] at hself
    · intro hmem r hr
      have hrx : r ∈ items := hsub hr
      by_cases hxr : x = r
      · exact absurd (hxr ▸ hr) hmem
      · have hsymm : Symmetric (fun a b : QueueItem => itemKey a ≠ itemKey b) :=
          fun a b h heq => h heq.symm
        have hkne : itemKey x ≠ itemKey r := hdist.forall hsymm hx hrx hxr
        have hfalse : matchesItem r x = false := by
          rw [Bool.eq_false_iff]
          intro htrue
          simp only [matchesItem, matchesKey, Bool.and_eq_true, beq_iff_eq] at htrue
          exact hkne (by simp [itemKey, htrue.1, htrue.2])
        simp [hfalse]
  rw [hcong]
  have hfilmem := filter_mem_perm hitemsnd hnd hsub
  have hlen :=
    (List.filter_append_perm (fun a => decide (a ∈ removed)) items).length_eq
  rw [List.length_append] at hlen
  rw [hfilmem.length_eq] at hlen
  omega

/-- Witness for the amended C6: two items with distinct (key, identifier)
pairs, one of them done, leave size 1 = 2 − 1. -/
theorem size_after_puts_and_dones_witness :
    [collidingItemA] ⊆ [collidingItemA, otherBugItem] ∧
    [collidingItemA].Nodup ∧
    [collidingItemA, otherBugItem].Pairwise (fun a b => itemKey a ≠ itemKey b) ∧
    memSize (runOps [] ([collidingItemA, otherBugItem].map opOf ++
      [collidingItemA].map DLOp.markDone)) = 1 :=
  ⟨by decide, by decide, by decide, by
    have h := size_after_puts_and_dones [collidingItemA, otherBugItem]
      [collidingItemA] (by decide) (by decide) (by decide)
    simpa using h⟩

/-! ## C3: idempotence of done -/

theorem memRemove_idem (st : MemState) (k : Int) (ident : String) :
    memRemove (memRemove st k ident) k ident = memRemove st k ident := by
  induction st with
  | nil => simp [memRemove]
  | cons e rest ih =>
    obtain ⟨k', v⟩ := e
    by_cases hk : k' = k
    · simp [memRemove, hk, List.filter_filter]
    · simp [memRemove, hk, ih]

theorem dirRemoveFile_eq_none (d : Dir) (name : String)
    (h : name ∉ d.map Prod.fst) : dirRemoveFile d name = none := by
  induction d with
  | nil => rfl
  | cons f rest ih =>
    obtain ⟨n, c⟩ := f
    simp only [List.map_cons, List.mem_cons, not_or] at h
    have hne : n ≠ name := fun he => h.1 he.symm
    simp [dirRemoveFile, hne, ih h.2]

theorem fsRemove_eq_none (fs : FS) (k : Int) (ident : String)
    (h : (ident ++ ".json") ∉ (fsDirFiles fs k).map Prod.fst) :
    fsRemove fs k ident = none := by
  induction fs with
  | nil => rfl
  | cons e rest ih =>
    obtain ⟨k', d⟩ := e
    by_cases hk : k' = k
    · have hd : fsDirFiles ((k', d) :: rest) k = d := by
        simp [fsDirFiles, fsDir, hk]
      rw [hd] at h
      simp [fsRemove, hk, dirRemoveFile_eq_none d _ h]
    · have hd : fsDirFiles ((k', d) :: rest) k = fsDirFiles rest k := by
        simp [fsDirFiles, fsDir, hk]
      rw [hd] at h
      simp [fsRemove, hk, ih h]

/-- A failed item for bug 7, used for the double-done scenario. -/
def failedItem7 : QueueItem :=
  ⟨20, ⟨⟨7⟩, ⟨"update", some 5⟩⟩, some ⟨"ValueError", "boom", "trace"⟩⟩

/-- C3 counterexample: on the file backend, the first `done` removes the
item's file, and a second `done` of the very same item hits `os.remove` on
the now-missing path and raises FileNotFoundError (modelled `none`) — it
errors rather than being a no-op. -/
theorem done_twice_counterexample :
    fsRemove (fsPut [] failedItem7) failedItem7.payload.bug.id
      failedItem7.identifier = some [(7, [])] ∧
    fsRemove [(7, [])] failedItem7.payload.bug.id
      failedItem7.identifier = none := by
  constructor <;> rfl

/-- C3 (amended): `done` is idempotent on the memory backend — the second
call leaves the state unchanged, and (on a well-formed state) a `done`
only removes items carrying its own (key, identifier), leaving every other
stored item in place; on the file backend, a second `done` of the same
item raises a missing-file error instead of completing as a no-op. -/
theorem done_idempotent_amended :
    (∀ (st : MemState) (i : QueueItem),
      doneMem (doneMem st i) i = doneMem st i) ∧
    (∀ (st : MemState) (i : QueueItem), MemWF st →
      allItems (doneMem st i) =
        (allItems st).filter (fun j => !(matchesItem i j))) ∧
    (∀ (fs : FS) (k : Int) (ident : String),
      (ident ++ ".json") ∉ (fsDirFiles fs k).map Prod.fst →
      fsRemove fs k ident = none) := by
  refine ⟨?_, ?_, ?_⟩
  · intro st i
    exact memRemove_idem st _ _
  · intro st i hwf
    exact allItems_memRemove st _ _ hwf
  · intro fs k ident h
    exact fsRemove_eq_none fs k ident h

/-- Witness for the amended C3 at concrete backend states. -/
theorem done_idempotent_amended_witness :
    MemWF [(7, [failedItem7])] ∧
    doneMem (doneMem [(7, [failedItem7])] failedItem7) failedItem7 =
      doneMem [(7, [failedItem7])] failedItem7 ∧
    allItems (doneMem [(7, [failedItem7])] failedItem7) =
      (allItems [(7, [failedItem7])]).filter
        (fun j => !(matchesItem failedItem7 j)) ∧
    ("missing" ++ ".json") ∉ (fsDirFiles [(7, [])] 7).map Prod.fst ∧
    fsRemove [(7, [])] 7 "missing" = none := by
  have hwf : MemWF [(7, [failedItem7])] := by
    constructor
    · decide
    · decide
  refine ⟨hwf, done_idempotent_amended.1 _ _,
    done_idempotent_amended.2.1 _ failedItem7 hwf, by decide,
    done_idempotent_amended.2.2 [(7, [])] 7 "missing" (by decide)⟩

/-! ## C7, C8: on-disk layout and round-trip -/

theorem itemFromJson_itemToJson (i : QueueItem) :
    itemFromJson (itemToJson i) = some i := by
  obtain ⟨ts, ⟨⟨bid⟩, ⟨act, tm⟩⟩, err⟩ := i
  cases tm <;> rcases err with _ | ⟨t, de, dt⟩ <;>
    simp [itemToJson, itemFromJson, payloadFromJson, errorFromJson,
      timeToJson, errorToJson, getField, asNat, asInt, asStr, asOptNat]

theorem fsDir_fsPut_self (fs : FS) (i : QueueItem) :
    fsDir (fsPut fs i) i.payload.bug.id =
      some (dirWrite (fsDirFiles fs i.payload.bug.id)
        (i.identifier ++ ".json") (itemToJson i)) := by
  induction fs with
  | nil => simp [fsPut, fsDir, fsDirFiles, dirWrite]
  | cons e rest ih =>
    obtain ⟨k', d⟩ := e
    by_cases hk : k' = i.payload.bug.id
    · simp [fsPut, fsDir, fsDirFiles, hk]
    · simp [fsPut, fsDir, fsDirFiles, hk, ih]

theorem fsDir_fsPut_ne (fs : FS) (i : QueueItem) (k : Int)
    (h : k ≠ i.payload.bug.id) : fsDir (fsPut fs i) k = fsDir fs k := by
  have hne : i.payload.bug.id ≠ k := fun he => h he.symm
  induction fs with
  | nil => simp [fsPut, fsDir, hne]
  | cons e rest ih =>
    obtain ⟨k', d⟩ := e
    by_cases hk : k' = i.payload.bug.id
    · simp [fsPut, fsDir, hk, hne]
    · simp [fsPut, fsDir, hk, ih]

theorem dirWrite_mem_self (d : Dir) (name : String) (c : Json) :
    (name, c) ∈ dirWrite d name c := by
  induction d with
  | nil => simp [dirWrite]
  | cons f rest ih =>
    obtain ⟨n, c'⟩ := f
    by_cases hn : n = name
    · simp [dirWrite, hn]
    · simp only [dirWrite, if_neg hn, List.mem_cons]
      exact Or.inr ih

theorem mem_dirWrite (d : Dir) (name : String) (c : Json) (f : String × Json)
    (h : f ∈ dirWrite d name c) : f = (name, c) ∨ f ∈ d := by
  induction d with
  | nil => simpa [dirWrite] using h
  | cons g rest ih =>
    obtain ⟨n, c'⟩ := g
    by_cases hn : n = name
    · simp only [dirWrite, if_pos hn, List.mem_cons] at h
      rcases h with rfl | h
      · exact Or.inl (by rw [hn])
      · exact Or.inr (List.mem_cons_of_mem _ h)
    · simp only [dirWrite, if_neg hn, List.mem_cons] at h
      rcases h with rfl | h
      · exact Or.inr (List.mem_cons_self _ _)
      · rcases ih h with h1 | h1
        · exact Or.inl h1
        · exact Or.inr (List.mem_cons_of_mem _ h1)

theorem parseDir_of_isSome (d : Dir)
    (h : ∀ f ∈ d, (itemFromJson f.snd).isSome) :
    ∃ l, parseDir d = some l ∧
      ∀ f ∈ d, ∀ i, itemFromJson f.snd = some i → i ∈ l := by
  induction d with
  | nil => exact ⟨[], rfl, by simp⟩
  | cons f rest ih =>
    obtain ⟨i0, hi0⟩ := Option.isSome_iff_exists.mp
      (h f (List.mem_cons_self _ _))
    obtain ⟨l, hl, hmem⟩ := ih (fun g hg => h g (List.mem_cons_of_mem _ hg))
    refine ⟨i0 :: l, ?_, ?_⟩
    · simp only [parseDir, List.map_cons] at hl ⊢
      simp [parseFiles, hi0, hl]
    · intro g hg j hj
      rcases List.mem_cons.mp hg with rfl | hg2
      · rw [hj] at hi0
        simp only [Option.some.injEq] at hi0
        rw [hi0]
        exact List.mem_cons_self _ _
      · exact List.mem_cons_of_mem _ (hmem g hg2 j hj)

/-- C7: the derived identifier is exactly
`<timestamp seconds>-<action>-<"error"|"postponed">`, and `put` on the
file backend stores the serialized item in the key's directory (the
payload's bug id) under the file name `<identifier>.json`. -/
theorem identifier_format_and_put_path (i : QueueItem) (fs : FS) :
    i.identifier = toString i.timestamp ++ "-" ++ i.payload.event.action
      ++ "-" ++ (if i.error.isSome then "error" else "postponed") ∧
    ∃ d, fsDir (fsPut fs i) i.payload.bug.id = some d ∧
      (i.identifier ++ ".json", itemToJson i) ∈ d ∧
      ∀ k, k ≠ i.payload.bug.id → fsDir (fsPut fs i) k = fsDir fs k := by
  constructor
  · obtain ⟨ts, p, err⟩ := i
    cases err <;> rfl
  · refine ⟨dirWrite (fsDirFiles fs i.payload.bug.id)
      (i.identifier ++ ".json") (itemToJson i), fsDir_fsPut_self fs i,
      dirWrite_mem_self _ _ _, fun k hk => fsDir_fsPut_ne fs i k hk⟩

/-- C8: file backend round-trip — provided every pre-existing file of the
key's directory parses, an item written by `put` is read back by `get` as
a logically equal value (all of timestamp, payload and error fields, since
equality of `QueueItem` is field-wise). -/
theorem file_round_trip (fs : FS) (i : QueueItem)
    (h : ∀ f ∈ fsDirFiles fs i.payload.bug.id, (itemFromJson f.snd).isSome) :
    ∃ l, fsGet (fsPut fs i) i.payload.bug.id = some l ∧ i ∈ l := by
  have hd := fsDir_fsPut_self fs i
  have hall : ∀ f ∈ dirWrite (fsDirFiles fs i.payload.bug.id)
      (i.identifier ++ ".json") (itemToJson i), (itemFromJson f.snd).isSome := by
    intro f hf
    rcases mem_dirWrite _ _ _ f hf with rfl | hfd
    · simp [itemFromJson_itemToJson]
    · exact h f hfd
  obtain ⟨l, hl, hmem⟩ := parseDir_of_isSome _ hall
  refine ⟨l, ?_, ?_⟩
  · simp [fsGet, hd, hl]
  · exact hmem _ (dirWrite_mem_self _ _ _) i (itemFromJson_itemToJson i)

/-- Witness for C8: the round trip on an empty file backend. -/
theorem file_round_trip_witness :
    (∀ f ∈ fsDirFiles [] failedItem7.payload.bug.id,
      (itemFromJson f.snd).isSome) ∧
    ∃ l, fsGet (fsPut [] failedItem7) failedItem7.payload.bug.id = some l ∧
      failedItem7 ∈ l :=
  ⟨by simp [fsDirFiles, fsDir], file_round_trip [] failedItem7
    (by simp [fsDirFiles, fsDir])⟩

/-! ## C4: get_all groups every stored item by key -/

/-- The items a directory's files parse to. -/
def dirItems (d : Dir) : List QueueItem :=
  (d.map Prod.snd).filterMap itemFromJson

/-- Well-formedness of a file backend tree: distinct directory keys, and
every file parses to an item whose payload key is the directory's key
(every file written by `put` has this shape). -/
def FSWF (fs : FS) : Prop :=
  (fs.map Prod.fst).Nodup ∧
  ∀ e ∈ fs, ∀ f ∈ e.snd, ∃ i : QueueItem,
    itemFromJson f.snd = some i ∧ i.payload.bug.id = e.fst

theorem parseFiles_eq (js : List Json)
    (h : ∀ j ∈ js, (itemFromJson j).isSome) :
    parseFiles js = some (js.filterMap itemFromJson) := by
  induction js with
  | nil => rfl
  | cons j rest ih =>
    obtain ⟨i0, hi0⟩ := Option.isSome_iff_exists.mp
      (h j (List.mem_cons_self _ _))
    rw [List.filterMap_cons]
    simp [parseFiles, hi0, ih (fun g hg => h g (List.mem_cons_of_mem _ hg))]

theorem parseFiles_append (l1 l2 : List Json) :
    parseFiles (l1 ++ l2) =
      (parseFiles l1).bind
        (fun r1 => (parseFiles l2).map (fun r2 => r1 ++ r2)) := by
  induction l1 with
  | nil =>
    simp only [List.nil_append, parseFiles, Option.bind_eq_bind,
      Option.some_bind]
    cases parseFiles l2 <;> simp
  | cons j rest ih =>
    simp only [List.cons_append, parseFiles, ih]
    cases hj : itemFromJson j <;> cases hr : parseFiles rest <;>
      cases hl : parseFiles l2 <;> simp [hj, hr, hl, ih]

theorem parseFiles_fsAllFiles (fs : FS)
    (h : ∀ e ∈ fs, ∀ f ∈ e.snd, (itemFromJson f.snd).isSome) :
    parseFiles (fsAllFiles fs) =
      some ((fs.map (fun e => dirItems e.snd)).flatten) := by
  induction fs with
  | nil => rfl
  | cons e rest ih =>
    simp only [fsAllFiles, List.map_cons, List.flatten_cons]
    rw [parseFiles_append]
    have h1 : ∀ j ∈ e.snd.map Prod.snd, (itemFromJson j).isSome := by
      intro j hj
      obtain ⟨f, hf, rfl⟩ := List.mem_map.mp hj
      exact h e (List.mem_cons_self _ _) f hf
    rw [parseFiles_eq (e.snd.map Prod.snd) h1]
    have hrest := ih (fun g hg => h g (List.mem_cons_of_mem _ hg))
    simp only [fsAllFiles] at hrest
    rw [hrest]
    simp [dirItems]

theorem groupRuns_append_const (d rest : List QueueItem) (k : Int)
    (hd : ∀ i ∈ d, i.payload.bug.id = k)
    (hne : ∀ g ∈ groupRuns rest, g.fst ≠ k) :
    groupRuns (d ++ rest) =
      (if d.isEmpty then [] else [(k, d)]) ++ groupRuns rest := by
  induction d with
  | nil => simp
  | cons a d2 ih =>
    have ha : a.payload.bug.id = k := hd a (List.mem_cons_self _ _)
    have hd2 : ∀ i ∈ d2, i.payload.bug.id = k :=
      fun i hi => hd i (List.mem_cons_of_mem _ hi)
    simp only [List.cons_append, groupRuns, List.append_eq]
    rw [ih hd2]
    cases d2 with
    | nil =>
      simp only [List.isEmpty_nil, if_pos, List.nil_append]
      cases hgr : groupRuns rest with
      | nil => simp [ha]
      | cons g gs =>
        obtain ⟨gk, gi⟩ := g
        have hgk : gk ≠ k := hne (gk, gi) (hgr ▸ List.mem_cons_self _ _)
        have hak : a.payload.bug.id ≠ gk := by
          rw [ha]
          exact fun he => hgk he.symm
        simp [ha, hak, Ne.symm hgk]
    | cons b d3 =>
      simp [ha]

theorem groupRuns_flatten (blocks : List (Int × List QueueItem))
    (hconst : ∀ e ∈ blocks, ∀ i ∈ e.snd, i.payload.bug.id = e.fst)
    (hnd : (blocks.map Prod.fst).Nodup) :
    groupRuns ((blocks.map Prod.snd).flatten) =
      blocks.filter (fun e => !(e.snd.isEmpty)) := by
  induction blocks with
  | nil => rfl
  | cons e rest ih =>
    obtain ⟨k, d⟩ := e
    have hihyp : groupRuns ((rest.map Prod.snd).flatten) =
        rest.filter (fun e => !(e.snd.isEmpty)) :=
      ih (fun g hg => hconst g (List.mem_cons_of_mem _ hg))
        (List.nodup_cons.mp hnd).2
    have hne : ∀ g ∈ groupRuns ((rest.map Prod.snd).flatten), g.fst ≠ k := by
      intro g hg
      rw [hihyp] at hg
      have hgm := List.mem_of_mem_filter hg
      have hmem : g.fst ∈ rest.map Prod.fst := List.mem_map_of_mem Prod.fst hgm
      intro he
      rw [he] at hmem
      exact (List.nodup_cons.mp hnd).1 hmem
    simp only [List.map_cons, List.flatten_cons]
    rw [groupRuns_append_const d _ k
      (hconst (k, d) (List.mem_cons_self _ _)) hne, hihyp]
    rw [List.filter_cons]
    cases d <;> simp

theorem dictAssign_append (d : List (Int × List QueueItem)) (k : Int)
    (v : List QueueItem) (h : k ∉ d.map Prod.fst) :
    dictAssign d k v = d ++ [(k, v)] := by
  induction d with
  | nil => rfl
  | cons e rest ih =>
    obtain ⟨k', v'⟩ := e
    simp only [List.map_cons, List.mem_cons, not_or] at h
    have hne : k' ≠ k := fun he => h.1 he.symm
    simp [dictAssign, hne, ih h.2]

theorem foldl_dictAssign (runs : List (Int × List QueueItem)) :
    ∀ acc : List (Int × List QueueItem),
    (∀ e ∈ runs, e.fst ∉ acc.map Prod.fst) →
    (runs.map Prod.fst).Nodup →
    runs.foldl (fun d e => dictAssign d e.fst e.snd) acc = acc ++ runs := by
  induction runs with
  | nil => intro acc _ _; simp
  | cons e rs ih =>
    intro acc hdisj hnd
    simp only [List.foldl_cons]
    rw [dictAssign_append acc e.fst e.snd (hdisj e (List.mem_cons_self _ _))]
    have hdisj2 : ∀ g ∈ rs, g.fst ∉ (acc ++ [e]).map Prod.fst := by
      intro g hg hmem
      rw [List.map_append, List.mem_append] at hmem
      rcases hmem with hmem | hmem
      · exact hdisj g (List.mem_cons_of_mem _ hg) hmem
      · simp only [List.map_cons, List.map_nil, List.mem_singleton] at hmem
        have h1 := (List.nodup_cons.mp hnd).1
        rw [← hmem] at h1
        exact h1 (List.mem_map_of_mem Prod.fst hg)
    rw [ih (acc ++ [e]) hdisj2 (List.nodup_cons.mp hnd).2]
    simp

theorem dictOfRuns_eq_self (runs : List (Int × List QueueItem))
    (hnd : (runs.map Prod.fst).Nodup) : dictOfRuns runs = runs := by
  have h := foldl_dictAssign runs [] (by simp) hnd
  simpa [dictOfRuns] using h

theorem fsGetAll_eq (fs : FS) (h : FSWF fs) :
    fsGetAll fs =
      some ((fs.map (fun e => (e.fst, dirItems e.snd))).filter
        (fun e => !(e.snd.isEmpty))) := by
  have hsome : ∀ e ∈ fs, ∀ f ∈ e.snd, (itemFromJson f.snd).isSome := by
    intro e he f hf
    obtain ⟨i, hi, _⟩ := h.2 e he f hf
    simp [hi]
  have hp := parseFiles_fsAllFiles fs hsome
  have hconst : ∀ e ∈ fs.map (fun e => (e.fst, dirItems e.snd)),
      ∀ i ∈ e.snd, i.payload.bug.id = e.fst := by
    intro e he i hi
    obtain ⟨e0, he0, rfl⟩ := List.mem_map.mp he
    obtain ⟨j, hj, hij⟩ := List.mem_filterMap.mp hi
    obtain ⟨f, hf, rfl⟩ := List.mem_map.mp hj
    obtain ⟨i2, hi2, hkey⟩ := h.2 e0 he0 f hf
    rw [hij] at hi2
    simp only [Option.some.injEq] at hi2
    rw [← hi2] at hkey
    exact hkey
  have hkeys : ((fs.map (fun e => (e.fst, dirItems e.snd))).map Prod.fst).Nodup := by
    rw [List.map_map]
    exact h.1
  have hflat : (fs.map (fun e => dirItems e.snd)).flatten =
      ((fs.map (fun e => (e.fst, dirItems e.snd))).map Prod.snd).flatten := by
    rw [List.map_map]
    rfl
  have hgroup := groupRuns_flatten (fs.map (fun e => (e.fst, dirItems e.snd)))
    hconst hkeys
  have hfilnd : (((fs.map (fun e => (e.fst, dirItems e.snd))).filter
      (fun e => !(e.snd.isEmpty))).map Prod.fst).Nodup :=
    ((List.filter_sublist _).map Prod.fst).nodup hkeys
  unfold fsGetAll
  rw [hp]
  simp only [Option.bind_eq_bind, Option.some_bind]
  rw [hflat, hgroup, dictOfRuns_eq_self _ hfilnd]
  rfl

theorem memWF_runOps (ops : List DLOp) :
    ∀ st : MemState, MemWF st → MemWF (runOps st ops) := by
  induction ops with
  | nil => intro st h; exact h
  | cons op rest ih =>
    intro st h
    simp only [runOps, List.foldl_cons] at *
    apply ih
    cases op with
    | postpone ts p => exact memWF_memPut _ h
    | trackFailed ts p e => exact memWF_memPut _ h
    | markDone i => exact memWF_memRemove _ _ h

theorem memItems_eq_of_mem (st : MemState)
    (hnd : (st.map Prod.fst).Nodup) :
    ∀ e ∈ st, memItems st e.fst = e.snd := by
  induction st with
  | nil => simp
  | cons hd rest ih =>
    obtain ⟨k, v⟩ := hd
    intro e he
    rcases List.mem_cons.mp he with rfl | he2
    · simp [memItems]
    · have hne : k ≠ e.fst := by
        intro heq
        have hm : k ∈ rest.map Prod.fst := by
          rw [heq]
          exact List.mem_map_of_mem Prod.fst he2
        exact (List.nodup_cons.mp hnd).1 hm
      simp only [memItems, if_neg hne]
      exact ih (List.nodup_cons.mp hnd).2 e he2

/-- C4: `get_all` returns every stored item grouped by its payload's key.
Memory backend: on any state reached by facade calls from empty, the
returned dict is the whole store, has pairwise distinct keys, every item
sits under its payload's key, and each entry is exactly the backlog of its
key.  File backend: on a well-formed tree, `get_all` returns exactly the
nonempty directories in order, each keyed by the directory's key (equal to
its items' payload keys) and carrying exactly that directory's parsed
items. -/
theorem get_all_groups (ops : List DLOp) (fs : FS) (hfs : FSWF fs) :
    (memGetAll (runOps [] ops) = runOps [] ops ∧
     ((memGetAll (runOps [] ops)).map Prod.fst).Nodup ∧
     (∀ e ∈ memGetAll (runOps [] ops), ∀ i ∈ e.snd,
        i.payload.bug.id = e.fst) ∧
     (∀ e ∈ memGetAll (runOps [] ops),
        memItems (runOps [] ops) e.fst = e.snd)) ∧
    (fsGetAll fs =
      some ((fs.map (fun e => (e.fst, dirItems e.snd))).filter
        (fun e => !(e.snd.isEmpty))) ∧
     (∀ e ∈ fs, ∀ i ∈ dirItems e.snd, i.payload.bug.id = e.fst)) := by
  have hwf : MemWF (runOps [] ops) := memWF_runOps ops [] memWF_nil
  refine ⟨⟨rfl, hwf.1, hwf.2, ?_⟩, fsGetAll_eq fs hfs, ?_⟩
  · exact memItems_eq_of_mem _ hwf.1
  · intro e he i hi
    obtain ⟨j, hj, hij⟩ := List.mem_filterMap.mp hi
    obtain ⟨f, hf, rfl⟩ := List.mem_map.mp hj
    obtain ⟨i2, hi2, hkey⟩ := hfs.2 e he f hf
    rw [hij] at hi2
    simp only [Option.some.injEq] at hi2
    rw [← hi2] at hkey
    exact hkey

/-- A one-file tree used as the concrete well-formed file backend state. -/
def sampleFS : FS := [(7, [("20-update-error.json", itemToJson failedItem7)])]

/-- Witness for C4: the concrete tree is well-formed and `get_all` on it
returns the single key with its single item. -/
theorem get_all_groups_witness :
    FSWF sampleFS ∧ fsGetAll sampleFS = some [(7, [failedItem7])] := by
  have hwf : FSWF sampleFS := by
    constructor
    · decide
    · intro e he f hf
      simp only [sampleFS, List.mem_singleton] at he
      subst he
      simp only [List.mem_singleton] at hf
      subst hf
      exact ⟨failedItem7, itemFromJson_itemToJson failedItem7, rfl⟩
  refine ⟨hwf, ?_⟩
  have h := (get_all_groups [] sampleFS hwf).2.1
  rw [h]
  rfl

/-! ## C9: remove deletes exactly the addressed item -/

theorem filter_eq_erase_of_unique (l : List QueueItem) (x : QueueItem)
    (ident : String) (hx : x ∈ l) (hxid : x.identifier = ident)
    (hcount : l.countP (fun y => y.identifier == ident) = 1) :
    l.filter (fun y => y.identifier != ident) = l.erase x := by
  induction l with
  | nil => simp at hx
  | cons a t ih =>
    by_cases ha : a.identifier = ident
    · have hct : t.countP (fun y => y.identifier == ident) = 0 := by
        rw [List.countP_cons_of_pos _ t (by simp [ha])] at hcount
        omega
      have hxa : x = a := by
        rcases List.mem_cons.mp hx with rfl | hxt
        · rfl
        · exfalso
          have hpos : 0 < t.countP (fun y => y.identifier == ident) :=
            List.countP_pos_iff.mpr ⟨x, hxt, by simp [hxid]⟩
          omega
      subst hxa
      have hft : t.filter (fun y => y.identifier != ident) = t := by
        rw [List.filter_eq_self]
        intro b hb
        have hbne : ¬(b.identifier = ident) := by
          intro hb2
          have hpos : 0 < t.countP (fun y => y.identifier == ident) :=
            List.countP_pos_iff.mpr ⟨b, hb, by simp [hb2]⟩
          omega
        simp [hbne]
      rw [List.filter_cons_of_neg (by simp [ha]), hft, List.erase_cons_head]
    · have hxa : x ≠ a := fun he => ha (he ▸ hxid)
      have hcount2 : t.countP (fun y => y.identifier == ident) = 1 := by
        rwa [List.countP_cons_of_neg _ t (by simp [ha])] at hcount
      have hxt : x ∈ t := by
        rcases List.mem_cons.mp hx with rfl | h
        · exact absurd rfl hxa
        · exact h
      rw [List.filter_cons_of_pos (by simp [ha]),
        List.erase_cons_tail (by simpa using fun he => hxa he.symm),
        ih hxt hcount2]

theorem memItems_memRemove_self (st : MemState) (k : Int) (ident : String) :
    memItems (memRemove st k ident) k =
      (memItems st k).filter (fun y => y.identifier != ident) := by
  induction st with
  | nil => simp [memRemove, memItems]
  | cons e rest ih =>
    obtain ⟨k', v⟩ := e
    by_cases hk : k' = k <;> simp [memRemove, memItems, hk, ih]

theorem memItems_memRemove_ne (st : MemState) (k k2 : Int) (ident : String)
    (h : k2 ≠ k) :
    memItems (memRemove st k ident) k2 = memItems st k2 := by
  induction st with
  | nil => simp [memRemove, memItems]
  | cons e rest ih =>
    obtain ⟨k', v⟩ := e
    by_cases hk : k' = k
    · have hne : k' ≠ k2 := fun he => h (he.symm.trans hk)
      simp [memRemove, memItems, hk, hne, Ne.symm h]
    · by_cases hk2 : k' = k2 <;> simp [memRemove, memItems, hk, hk2, ih, h]

theorem dirRemoveFile_eq_filter (d : Dir) (name : String)
    (hmem : name ∈ d.map Prod.fst) (hnd : (d.map Prod.fst).Nodup) :
    dirRemoveFile d name = some (d.filter (fun f => f.fst != name)) := by
  induction d with
  | nil => simp at hmem
  | cons f rest ih =>
    obtain ⟨n, c⟩ := f
    simp only [List.map_cons, List.mem_cons] at hmem
    by_cases hn : n = name
    · subst hn
      have hno : n ∉ rest.map Prod.fst := (List.nodup_cons.mp hnd).1
      have hfr : rest.filter (fun f => f.fst != n) = rest := by
        rw [List.filter_eq_self]
        intro g hg
        have hgn : g.fst ≠ n := by
          intro he
          exact hno (he ▸ List.mem_map_of_mem Prod.fst hg)
        simp [hgn]
      simp [dirRemoveFile, hfr]
    · have hmem2 : name ∈ rest.map Prod.fst := by
        rcases hmem with h1 | h1
        · exact absurd h1.symm hn
        · exact h1
      simp [dirRemoveFile, hn, ih hmem2 (List.nodup_cons.mp hnd).2]

theorem fsRemove_of_dirRemove (fs : FS) (k : Int) (ident : String) :
    ∀ d2, dirRemoveFile (fsDirFiles fs k) (ident ++ ".json") = some d2 →
    ∃ fs2, fsRemove fs k ident = some fs2 ∧
      fsDirFiles fs2 k = d2 ∧
      ∀ k2, k2 ≠ k → fsDir fs2 k2 = fsDir fs k2 := by
  induction fs with
  | nil =>
    intro d2 h
    simp [fsDirFiles, fsDir, dirRemoveFile] at h
  | cons e rest ih =>
    obtain ⟨k', d⟩ := e
    intro d2 h
    by_cases hk : k' = k
    · have hd : fsDirFiles ((k', d) :: rest) k = d := by
        simp [fsDirFiles, fsDir, hk]
      rw [hd] at h
      refine ⟨(k', d2) :: rest, ?_, ?_, ?_⟩
      · simp [fsRemove, hk, h]
      · simp [fsDirFiles, fsDir, hk]
      · intro k2 hk2
        have hne : k' ≠ k2 := fun he => hk2 (he.symm.trans hk)
        simp [fsDir, hne]
    · have hd : fsDirFiles ((k', d) :: rest) k = fsDirFiles rest k := by
        simp [fsDirFiles, fsDir, hk]
      rw [hd] at h
      obtain ⟨fs2, h1, h2, h3⟩ := ih d2 h
      refine ⟨(k', d) :: fs2, ?_, ?_, ?_⟩
      · simp [fsRemove, hk, h1]
      · simp [fsDirFiles, fsDir, hk, h2]
        exact h2
      · intro k2 hk2
        by_cases hk3 : k' = k2
        · simp [fsDir, hk3]
        · simp [fsDir, hk3, h3 k2 hk2]

/-- C9: `remove(key, identifier)` deletes the single stored item matching
both key and identifier, and every other stored item — under the same key
or any other key — remains.  Memory backend: when exactly one item of the
key's backlog carries the identifier, the backlog loses exactly that item
and other keys are untouched.  File backend: when the key's directory has
a (unique, as on a real filesystem) file of that name, exactly that file
disappears and every other file and directory is untouched. -/
theorem remove_single_matching :
    (∀ (st : MemState) (k : Int) (ident : String) (x : QueueItem),
      x ∈ memItems st k → x.identifier = ident →
      (memItems st k).countP (fun y => y.identifier == ident) = 1 →
      memItems (memRemove st k ident) k = (memItems st k).erase x ∧
      ∀ k2, k2 ≠ k → memItems (memRemove st k ident) k2 = memItems st k2) ∧
    (∀ (fs : FS) (k : Int) (ident : String),
      (ident ++ ".json") ∈ (fsDirFiles fs k).map Prod.fst →
      ((fsDirFiles fs k).map Prod.fst).Nodup →
      ∃ fs2, fsRemove fs k ident = some fs2 ∧
        fsDirFiles fs2 k =
          (fsDirFiles fs k).filter (fun f => f.fst != ident ++ ".json") ∧
        ∀ k2, k2 ≠ k → fsDir fs2 k2 = fsDir fs k2) := by
  constructor
  · intro st k ident x hx hxid hcount
    refine ⟨?_, fun k2 hk2 => memItems_memRemove_ne st k k2 ident hk2⟩
    rw [memItems_memRemove_self]
    exact filter_eq_erase_of_unique _ x ident hx hxid hcount
  · intro fs k ident hmem hnd
    exact fsRemove_of_dirRemove fs k ident _
      (dirRemoveFile_eq_filter _ _ hmem hnd)

/-- A second item for bug 7, distinct identifier (postponed, other second). -/
def postponedItem7 : QueueItem := ⟨21, ⟨⟨7⟩, ⟨"update", some 6⟩⟩, none⟩

/-- Witness for C9: a two-item backlog under one key loses exactly the
addressed item on both backends. -/
theorem remove_single_matching_witness :
    (failedItem7 ∈ memItems [(7, [failedItem7, postponedItem7])] 7 ∧
     failedItem7.identifier = "20-update-error" ∧
     (memItems [(7, [failedItem7, postponedItem7])] 7).countP
       (fun y => y.identifier == "20-update-error") = 1 ∧
     memItems (memRemove [(7, [failedItem7, postponedItem7])] 7
       "20-update-error") 7 = [postponedItem7]) ∧
    (("20-update-error" ++ ".json") ∈
      (fsDirFiles sampleFS 7).map Prod.fst ∧
     ∃ fs2, fsRemove sampleFS 7 "20-update-error" = some fs2 ∧
       fsDirFiles fs2 7 = []) := by
  constructor
  · refine ⟨by decide, by decide, by decide, ?_⟩
    have h := (remove_single_matching.1 [(7, [failedItem7, postponedItem7])]
      7 "20-update-error" failedItem7 (by decide) (by decide) (by decide)).1
    rw [h]
    decide
  · refine ⟨by decide, ?_⟩
    obtain ⟨fs2, h1, h2, _⟩ := remove_single_matching.2 sampleFS 7
      "20-update-error" (by decide) (by decide)
    refine ⟨fs2, h1, ?_⟩
    rw [h2]
    rfl

/-! ## C5: backend selection from the DSN -/

/-- C5: constructing the queue dispatches exactly once on the DSN's parsed
scheme: `memory` yields the memory backend, `file` yields a file backend
rooted at the DSN's path component, and any other scheme fails with the
invalid-configuration error carrying that scheme, before any backend is
created. -/
theorem dsn_selects_backend (dsn : String) :
    ((parseUrl dsn).scheme = "memory" → dlqInit dsn = .ok (.mem [])) ∧
    ((parseUrl dsn).scheme = "file" →
      dlqInit dsn = .ok (.file (parseUrl dsn).path [])) ∧
    ((parseUrl dsn).scheme ≠ "memory" → (parseUrl dsn).scheme ≠ "file" →
      dlqInit dsn = .error (.invalidQueueDSN (parseUrl dsn).scheme)) := by
  refine ⟨fun h1 => ?_, fun h2 => ?_, fun h1 h2 => ?_⟩
  · simp [dlqInit, h1]
  · simp [dlqInit, h2]
  · simp [dlqInit, h1, h2]

/-- Witness for C5 on the three scenario DSNs. -/
theorem dsn_selects_backend_witness :
    (parseUrl "memory://").scheme = "memory" ∧
    dlqInit "memory://" = .ok (.mem []) ∧
    (parseUrl "file:///tmp/dlq").scheme = "file" ∧
    dlqInit "file:///tmp/dlq" = .ok (.file "/tmp/dlq" []) ∧
    (parseUrl "ftp://x").scheme = "ftp" ∧
    dlqInit "ftp://x" = .error (.invalidQueueDSN "ftp") := by
  have hs1 : (parseUrl "memory://").scheme = "memory" := rfl
  have hs2 : (parseUrl "file:///tmp/dlq").scheme = "file" := rfl
  have hs3 : (parseUrl "ftp://x").scheme = "ftp" := rfl
  have h1 := (dsn_selects_backend "memory://").1 hs1
  have h2 := (dsn_selects_backend "file:///tmp/dlq").2.1 hs2
  have h3 := (dsn_selects_backend "ftp://x").2.2
    (by rw [hs3]; decide) (by rw [hs3]; decide)
  rw [hs3] at h3
  have hpath : (parseUrl "file:///tmp/dlq").path = "/tmp/dlq" := rfl
  rw [hpath] at h2
  exact ⟨hs1, h1, hs2, h2, hs3, h3⟩

/-! ## Concrete instantiations of the remaining claim theorems -/

/-- Witness for C1: the two-level sort at a concrete two-key store. -/
theorem retrieve_two_level_sort_witness :
    retrieveFrom [(1, [collidingItemA]), (2, [otherBugItem])] =
      (byOldestBugEvents [(1, [collidingItemA]), (2, [otherBugItem])]).flatten ∧
    (retrieveFrom [(1, [collidingItemA]), (2, [otherBugItem])]).Perm
      (([(1, [collidingItemA]), (2, [otherBugItem])].map Prod.snd).flatten) := by
  have h := retrieve_two_level_sort [(1, [collidingItemA]), (2, [otherBugItem])]
  exact ⟨h.1, h.2.2.2.2.2.1⟩

/-- Witness for C2: a nonempty backlog blocks its key. -/
theorem is_blocked_iff_pending_witness :
    (isBlockedMem [(7, [failedItem7])] failedItem7.payload).fst = true :=
  (is_blocked_iff_pending.1 [(7, [failedItem7])] failedItem7.payload).mpr
    (by decide)

/-- Witness for C7 at a concrete item and the empty tree. -/
theorem identifier_format_and_put_path_witness :
    failedItem7.identifier = "20-update-error" ∧
    ∃ d, fsDir (fsPut [] failedItem7) 7 = some d ∧
      ("20-update-error.json", itemToJson failedItem7) ∈ d := by
  obtain ⟨-, d, hd, hmem, -⟩ := identifier_format_and_put_path failedItem7 []
  exact ⟨by decide, d, hd, hmem⟩

/-- Witness for C10: probing an empty backend changes nothing observable. -/
theorem is_blocked_frame_witness :
    memSize (isBlockedMem [] failedItem7.payload).snd =
      memSize ([] : MemState) ∧
    retrieveMem (isBlockedMem [] failedItem7.payload).snd =
      retrieveMem [] :=
  is_blocked_frame [] failedItem7.payload

end JBI
